import Mathlib

/-!
Verification of the UniAssist RAG assistant (chunking, quiz parsing and
grading, answer packaging) against its natural-language specification.

The Python sources `src/processing/text_chunker.py` and
`src/agents/rag_system.py` are embedded shallowly: Python strings become
`String`, Python `str.split` / `str.strip` / `str.split('\n')` become the
executable helpers below (defined over `List Char` so that every
definition reduces in the kernel), dictionaries become association lists
or `Nat → Option _` maps, floats become `ℚ`, and a `while` loop whose
termination is itself under scrutiny becomes a fuel-indexed function
returning `Option`, where `none` models divergence or a raised exception.
-/

namespace UniAssist

/-! ## Python string primitives -/

/-- Python `str.split(sep)` for a one-character separator: keeps empty
pieces and always returns at least one piece. -/
def splitOnCharAux (sep : Char) : List Char → List Char → List String
  | acc, [] => [String.mk acc.reverse]
  | acc, c :: cs =>
    if c = sep then String.mk acc.reverse :: splitOnCharAux sep [] cs
    else splitOnCharAux sep (c :: acc) cs

def splitOnChar (sep : Char) (s : String) : List String :=
  splitOnCharAux sep [] s.data

/-- Python `str.split()` (no argument): maximal runs of non-whitespace,
empty pieces dropped. -/
def splitWsAux : List Char → List Char → List String
  | acc, [] => if acc.isEmpty then [] else [String.mk acc.reverse]
  | acc, c :: cs =>
    if c.isWhitespace then
      (if acc.isEmpty then [] else [String.mk acc.reverse]) ++ splitWsAux [] cs
    else splitWsAux (c :: acc) cs

def pySplitWs (s : String) : List String := splitWsAux [] s.data

/-- Right strip on character lists. -/
def rstripL (l : List Char) : List Char :=
  (l.reverse.dropWhile Char.isWhitespace).reverse

/-- Python `str.strip()`. -/
def pyStrip (s : String) : String :=
  String.mk (rstripL (s.data.dropWhile Char.isWhitespace))

/-- `List.isPrefixOf` spelled out, for Python `str.startswith`. -/
def listPrefix : List Char → List Char → Bool
  | [], _ => true
  | _ :: _, [] => false
  | a :: as, b :: bs => a = b && listPrefix as bs

def strStarts (pre s : String) : Bool := listPrefix pre.data s.data

/-- Python `sep.join(parts)`. -/
def joinSep (sep : String) : List String → String
  | [] => ""
  | [x] => x
  | x :: y :: xs => x ++ sep ++ joinSep sep (y :: xs)

/-! ## Quiz data model and `QuizAgent._parse_quiz`

From `src/agents/rag_system.py`.  A parsed question is a dict with keys
`question`, `options` (a dict from option letter to text) and, once a
`Correct:` line is seen, `correct` (a one-character string).  The parser
walks the lines keeping one current-question accumulator.  The expression
`line.split(':')[1].strip()[0]` raises `IndexError` when nothing but
whitespace follows the first colon; `none` models that exception. -/

structure QuizQuestion where
  question : String
  options : List (Char × String)
  correct : Option String
deriving Repr, DecidableEq

/-- Python dict assignment `options[letter] = text`: replace in place or
append. -/
def insertOpt (k : Char) (v : String) : List (Char × String) → List (Char × String)
  | [] => [(k, v)]
  | (k0, v0) :: r => if k0 = k then (k, v) :: r else (k0, v0) :: insertOpt k v r

def parseLines : List String → List QuizQuestion → Option QuizQuestion →
    Option (List QuizQuestion)
  | [], qs, cur => some (qs ++ cur.toList)
  | l :: rest, qs, cur =>
    let line := pyStrip l
    if strStarts "Q" line && line.data.any (fun c => c = ':') then
      parseLines rest (qs ++ cur.toList)
        (some { question := pyStrip (joinSep ":" (splitOnChar ':' line).tail),
                options := [], correct := none })
    else
      match cur with
      | none => parseLines rest qs none
      | some q =>
        if strStarts "A)" line || strStarts "B)" line ||
            strStarts "C)" line || strStarts "D)" line then
          let key := line.data.headD ' '
          let txt := pyStrip (String.mk (line.data.drop 2))
          parseLines rest qs (some { q with options := insertOpt key txt q.options })
        else if strStarts "Correct:" line then
          match (splitOnChar ':' line).get? 1 with
          | none => none
          | some sec =>
            match (pyStrip sec).data with
            | [] => none
            | c :: _ => parseLines rest qs (some { q with correct := some (String.mk [c]) })
        else parseLines rest qs (some q)

/-- `QuizAgent._parse_quiz`. -/
def parseQuiz (s : String) : Option (List QuizQuestion) :=
  parseLines (splitOnChar '\n' s) [] none

/-! ## `QuizAgent.grade_quiz` -/

structure Quiz where
  topic : String
  num_questions : Nat
  questions : List QuizQuestion
  sources : List String

structure GradeItem where
  question_num : Nat
  question : String
  user_answer : Option String
  correct_answer : Option String
  is_correct : Bool
deriving Repr, DecidableEq

structure GradeResult where
  total_questions : Nat
  correct : Nat
  incorrect : Nat
  score : ℚ
  results : List GradeItem
deriving Repr, DecidableEq

/-- `QuizAgent.grade_quiz`: the answers dict is `answers.get(i)` for the
1-based index `i`; `is_correct = (user_answer == correct_answer)` where
both sides may be `None`. -/
def gradeQuiz (quiz : Quiz) (answers : Nat → Option String) : GradeResult :=
  let items := (List.enumFrom 1 quiz.questions).map (fun p =>
    { question_num := p.1
      question := p.2.question
      user_answer := answers p.1
      correct_answer := p.2.correct
      is_correct := answers p.1 == p.2.correct : GradeItem })
  let correct_count := (items.filter (fun it => it.is_correct)).length
  let total := quiz.questions.length
  { total_questions := total
    correct := correct_count
    incorrect := total - correct_count
    score := if 0 < total then (correct_count : ℚ) / (total : ℚ) * 100 else 0
    results := items }

/-! ## Documents and chunks

From `src/processing/text_chunker.py`.  `_create_chunk` copies the
document envelope and strips the chunk text; `word_count`/`char_count`
are computed on the unstripped text. -/

structure Document where
  filename : String
  full_text : String
  doc_type : String
  course : String
  course_code : String
deriving Repr, DecidableEq

inductive ChunkMeta where
  | question (question_id : String)
  | sectionHeading (heading : String)
  | slide (page_number : Nat) (has_images : Bool)
  | generic (chunk_id : Nat)
deriving Repr, DecidableEq

structure Chunk where
  text : String
  chunk_type : String
  word_count : Nat
  char_count : Nat
  source_document : String
  doc_type : String
  course : String
  course_code : String
  meta : ChunkMeta
deriving Repr, DecidableEq

/-- `TextChunker._create_chunk`. -/
def createChunk (text : String) (doc : Document) (ctype : String) (m : ChunkMeta) : Chunk :=
  { text := pyStrip text
    chunk_type := ctype
    word_count := (pySplitWs text).length
    char_count := text.length
    source_document := doc.filename
    doc_type := doc.doc_type
    course := doc.course
    course_code := doc.course_code
    meta := m }

/-! ## `TextChunker._chunk_generic`

The `while start < len(words)` loop advances `start` by
`chunk_size - chunk_overlap` each iteration; the fuel argument makes the
loop a total function, with `none` meaning the fuel ran out (the loop did
not finish within that many iterations). -/

def genericWindows (S V : Nat) (words : List String) :
    Nat → Nat → Option (List (List String))
  | 0, start => if start < words.length then none else some []
  | fuel + 1, start =>
    if start < words.length then
      match genericWindows S V words fuel (start + (S - V)) with
      | none => none
      | some rest => some (((words.drop start).take S) :: rest)
    else some []

/-- The window pass of `_chunk_generic`, with fuel `words.length`
(sufficient whenever `chunk_overlap < chunk_size`, see the termination
theorem). -/
def chunkGenericWindows (S V : Nat) (words : List String) : Option (List (List String)) :=
  genericWindows S V words words.length 0

/-- `TextChunker._chunk_generic` on a document: windows over
`full_text.split()`, each joined with single spaces and wrapped as a
chunk with a sequential `chunk_id`. -/
def chunkGenericChunks (S V : Nat) (doc : Document) : Option (List Chunk) :=
  (chunkGenericWindows S V (pySplitWs doc.full_text)).map (fun ws =>
    ws.enum.map (fun p => createChunk (joinSep " " p.2) doc "generic" (ChunkMeta.generic p.1)))

/-! ## `TextChunker._is_heading` and `TextChunker._chunk_notes` -/

/-- `^[A-Z\s]{3,}$` with `re.match`: the whole line is uppercase letters
and whitespace, at least three characters. -/
def allCapsLine (l : List Char) : Bool :=
  decide (3 ≤ l.length) && l.all (fun c => ('A' ≤ c && c ≤ 'Z') || c.isWhitespace)

/-- `^\d+\.` -/
def numDotLine (l : List Char) : Bool :=
  !(l.takeWhile Char.isDigit).isEmpty &&
    (match l.dropWhile Char.isDigit with
     | '.' :: _ => true
     | _ => false)

/-- `^Word\s+\d+` for a literal case-sensitive word. -/
def wordNumLine : List Char → List Char → Bool
  | [], l =>
    let rest := l.dropWhile Char.isWhitespace
    !(l.takeWhile Char.isWhitespace).isEmpty &&
      (match rest with
       | c :: _ => c.isDigit
       | [] => false)
  | p :: ps, c :: cs => c = p && wordNumLine ps cs
  | _ :: _, [] => false

/-- `^[IVX]+\.` -/
def romanDotLine (l : List Char) : Bool :=
  let isRoman : Char → Bool := fun c => c = 'I' || c = 'V' || c = 'X'
  !(l.takeWhile isRoman).isEmpty &&
    (match l.dropWhile isRoman with
     | '.' :: _ => true
     | _ => false)

/-- `TextChunker._is_heading` (the argument is already stripped by the
caller). -/
def isHeading (line : String) : Bool :=
  if line = "" || line.length < 3 then false
  else
    allCapsLine line.data || numDotLine line.data ||
      wordNumLine "Chapter".data line.data || wordNumLine "Section".data line.data ||
      romanDotLine line.data

/-- The `if current_section:` flush used both inside the line pass of
`_chunk_notes` and at its end. -/
def notesFlush (doc : Document) (heading sec : String) (chunks : List Chunk) : List Chunk :=
  if sec = "" then chunks
  else chunks ++ [createChunk sec doc "section" (ChunkMeta.sectionHeading heading)]

/-- One iteration of the line pass of `_chunk_notes`: on a heading,
flush the accumulated section and start a new one; otherwise extend the
section; then force-flush when the running word count exceeds
`1.5 * chunk_size` (`2 * count > 3 * S` in exact arithmetic).  Returns
the new `(heading, section, chunks)` state. -/
def notesStep (S : Nat) (doc : Document) (line heading sec : String)
    (chunks : List Chunk) : String × String × List Chunk :=
  let ls := pyStrip line
  let st1 : String × String × List Chunk :=
    if isHeading ls then (ls, ls ++ "\n", notesFlush doc heading sec chunks)
    else (heading, sec ++ line ++ "\n", chunks)
  if 3 * S < 2 * (pySplitWs st1.2.1).length then
    (st1.1, "", st1.2.2 ++ [createChunk st1.2.1 doc "section" (ChunkMeta.sectionHeading st1.1)])
  else st1

/-- The line pass of `_chunk_notes`, with the final flush. -/
def notesLoop (S : Nat) (doc : Document) :
    List String → String → String → List Chunk → List Chunk
  | [], heading, sec, chunks => notesFlush doc heading sec chunks
  | line :: rest, heading, sec, chunks =>
    let st := notesStep S doc line heading sec chunks
    notesLoop S doc rest st.1 st.2.1 st.2.2

/-- `TextChunker._chunk_notes`: the line pass, falling back to the
generic strategy when it produced no chunks. -/
def chunkNotes (S V : Nat) (doc : Document) : Option (List Chunk) :=
  let cs := notesLoop S doc (splitOnChar '\n' doc.full_text) "Introduction" "" []
  if cs.isEmpty then chunkGenericChunks S V doc else some cs

/-! ## `TextChunker._chunk_past_paper`

The pattern `(Q\d+[\.\):]|Question\s+\d+[\.\):])` with `re.IGNORECASE`
is a deterministic scanner: at a given position the first alternative
matches `Q`/`q`, a maximal digit run, then one of `.`/`)`/`:`; the
second matches the word `question` in any letter case, a maximal
whitespace run, a maximal digit run, then `.`/`)`/`:`.  (The two
alternatives are disjoint and the character classes are pairwise
disjoint, so the backtracking regex engine and this scanner agree.)
`re.split` with the capturing group interleaves the unmatched segments
with the matched markers. -/

def isPunctQ (c : Char) : Bool := c = '.' || c = ')' || c = ':'

/-- `Q\d+[\.\):]` (case-insensitive on the `Q`), returning the matched
text and the remainder: a maximal nonempty digit run after the `Q` must
be followed by `.`/`)`/`:`. -/
def matchQNum : List Char → Option (List Char × List Char)
  | [] => none
  | c :: cs =>
    if c = 'Q' || c = 'q' then
      match cs.takeWhile Char.isDigit, cs.dropWhile Char.isDigit with
      | _ :: _, p :: rest =>
        if isPunctQ p then some (c :: (cs.takeWhile Char.isDigit ++ [p]), rest) else none
      | _, _ => none
    else none

/-- Consume a literal word case-insensitively (pattern given lowercase). -/
def stripLitCI : List Char → List Char → Option (List Char)
  | [], cs => some cs
  | _ :: _, [] => none
  | p :: ps, c :: cs => if c.toLower = p then stripLitCI ps cs else none

/-- `Question\s+\d+[\.\):]` with `re.IGNORECASE`: the literal word, a
maximal nonempty whitespace run, a maximal nonempty digit run, then
`.`/`)`/`:`. -/
def matchQuestionWord (cs : List Char) : Option (List Char × List Char) :=
  match stripLitCI "question".data cs with
  | none => none
  | some t =>
    match t.takeWhile Char.isWhitespace, t.dropWhile Char.isWhitespace with
    | [], _ => none
    | _ :: _, t2 =>
      match t2.takeWhile Char.isDigit, t2.dropWhile Char.isDigit with
      | _ :: _, p :: rest =>
        if isPunctQ p then
          some (cs.take 8 ++ (t.takeWhile Char.isWhitespace ++
            (t2.takeWhile Char.isDigit ++ [p])), rest)
        else none
      | _, _ => none

/-- One alternation step of the question-marker pattern (first
alternative first, as in the regex). -/
def matchMarker (cs : List Char) : Option (List Char × List Char) :=
  match matchQNum cs with
  | some r => some r
  | none => matchQuestionWord cs

/-- `re.split(pattern, text)` with one capturing group: unmatched
segments interleaved with markers.  Fuel-indexed: the scanner consumes
at least one character per step, so fuel `cs.length` always suffices
(every lemma below carries that invariant). -/
def splitQAux : Nat → List Char → List Char → List String
  | 0, acc, cs => [String.mk (acc.reverse ++ cs)]
  | fuel + 1, acc, [] =>
    let _ := fuel
    [String.mk acc.reverse]
  | fuel + 1, acc, c :: cs =>
    match matchMarker (c :: cs) with
    | some (m, rest) => String.mk acc.reverse :: String.mk m :: splitQAux fuel [] rest
    | none => splitQAux fuel (c :: acc) cs

def splitQuestionPattern (s : String) : List String :=
  splitQAux s.data.length [] s.data

/-- The markers among the split parts: every second element starting
from index 1. -/
def altMarkers : List String → List String
  | _ :: m :: rest => m :: altMarkers rest
  | _ => []

/-- The `for part in parts` loop of `_chunk_past_paper`, carrying the
current chunk text and current question marker. -/
def paperLoop (doc : Document) :
    List String → String → Option String → List Chunk → List Chunk
  | [], cur, curQ, chunks =>
    match curQ with
    | some q =>
      if cur = "" then chunks
      else chunks ++ [createChunk cur doc "question" (ChunkMeta.question q)]
    | none => chunks
  | part :: rest, cur, curQ, chunks =>
    if (matchMarker part.data).isSome then
      let chunks1 :=
        match curQ with
        | some q =>
          if cur = "" then chunks
          else chunks ++ [createChunk cur doc "question" (ChunkMeta.question q)]
        | none => chunks
      paperLoop doc rest part (some part) chunks1
    else paperLoop doc rest (cur ++ part) curQ chunks

/-- `TextChunker._chunk_past_paper`: question-wise chunks when the split
found at least two markers (`len(parts) > 3`), otherwise the generic
fallback. -/
def chunkPastPaper (S V : Nat) (doc : Document) : Option (List Chunk) :=
  let parts := splitQuestionPattern doc.full_text
  if 3 < parts.length then some (paperLoop doc parts "" none []) else chunkGenericChunks S V doc

/-! ## `AnswerAgent.generate_answer`

The external generation service (`_call_ollama`) is an injected
function; everything else is from the source. -/

structure RetrievedDoc where
  text : String
  source_document : String
  relevance_score : ℚ
deriving Repr, DecidableEq

structure AnswerResult where
  question : String
  answer : String
  sources : List String
  context_used : Nat
deriving Repr, DecidableEq

/-- `AnswerAgent._build_context`. -/
def buildContext (docs : List RetrievedDoc) : String :=
  joinSep "\n" ((List.enumFrom 1 docs).map (fun p =>
    "[Source " ++ toString p.1 ++ ": " ++ p.2.source_document ++ "]\n" ++ p.2.text ++ "\n"))

/-- `AnswerAgent._create_prompt`. -/
def createPrompt (query context : String) : String :=
  "You are a helpful Programming Fundamentals (C++) teaching assistant. \n" ++
  "Answer the student's question using ONLY the provided context from past papers and course materials.\n\n" ++
  "Context:\n" ++ context ++ "\n\n" ++
  "Student Question: " ++ query ++ "\n\n" ++
  "Instructions:\n" ++
  "- Provide a clear, accurate answer based on the context\n" ++
  "- If the context contains code examples, explain them\n" ++
  "- If you cannot answer from the context, say so\n" ++
  "- Keep the answer concise but complete\n\n" ++
  "Answer:"

/-- `AnswerAgent.generate_answer`; `llm` is the Ollama call. -/
def generateAnswer (llm : String → String) (query : String)
    (context_docs : List RetrievedDoc) : AnswerResult :=
  { question := query
    answer := llm (createPrompt query (buildContext context_docs))
    sources := (context_docs.take 3).map (fun d => d.source_document)
    context_used := context_docs.length }

/-! ## Generic chunking: characterization, termination, counts -/

lemma ceilDiv_succ_step (d n : Nat) (hd : 1 ≤ d) (hn : 0 < n) :
    (n + d - 1) / d = (n - d + d - 1) / d + 1 := by
  obtain ⟨m, rfl⟩ : ∃ m, n = m + 1 := ⟨n - 1, by omega⟩
  have h1 : m + 1 + d - 1 = m + d := by omega
  rw [h1, Nat.add_div_right _ (by omega)]
  rcases le_or_lt (m + 1) d with h | h
  · have h2 : m + 1 - d = 0 := by omega
    have h3 : m / d = 0 := Nat.div_eq_of_lt (by omega)
    have h4 : (0 + d - 1) / d = 0 := Nat.div_eq_of_lt (by omega)
    rw [h2, h3, h4]
  · have h2 : m + 1 - d + d - 1 = m := by omega
    rw [h2]

/-- With `chunk_overlap < chunk_size` and fuel covering the remaining
words, the window loop returns exactly the windows starting at every
multiple of the stride `S - V` below `words.length`. -/
lemma genericWindows_spec (S V : Nat) (words : List String) (hd : 1 ≤ S - V) :
    ∀ (fuel start : Nat), words.length ≤ start + fuel →
      genericWindows S V words fuel start =
        some ((List.range ((words.length - start + (S - V) - 1) / (S - V))).map
          (fun k => (words.drop (start + k * (S - V))).take S)) := by
  intro fuel
  induction fuel with
  | zero =>
    intro start h
    have hns : ¬ start < words.length := by omega
    have hz : (words.length - start + (S - V) - 1) / (S - V) =
        0 := Nat.div_eq_of_lt (by omega)
    simp [genericWindows, hns, hz]
  | succ fuel ih =>
    intro start h
    by_cases hs : start < words.length
    · have hrec := ih (start + (S - V)) (by omega)
      have hstep := ceilDiv_succ_step (S - V) (words.length - start) hd (by omega)
      have hsub : words.length - start - (S - V) = words.length - (start + (S - V)) := by
        omega
      rw [hsub] at hstep
      have key : (List.range ((words.length - start + (S - V) - 1) / (S - V))).map
            (fun k => (words.drop (start + k * (S - V))).take S)
          = ((words.drop start).take S) ::
            (List.range ((words.length - (start + (S - V)) + (S - V) - 1) / (S - V))).map
              (fun k => (words.drop ((start + (S - V)) + k * (S - V))).take S) := by
        rw [hstep, List.range_succ_eq_map, List.map_cons, List.map_map]
        refine congrArg₂ _ (by simp) ?_
        refine List.map_congr_left (fun k _ => ?_)
        have e : start + Nat.succ k * (S - V) = start + (S - V) + k * (S - V) := by
          rw [Nat.succ_mul]; ring
        simp only [Function.comp_apply, e]
      rw [key]
      simp only [genericWindows, if_pos hs, hrec]
    · have hz : (words.length - start + (S - V) - 1) / (S - V) =
          0 := Nat.div_eq_of_lt (by omega)
      simp [genericWindows, hs, hz]

/-- Claim C10: generic chunking terminates whenever the configured
overlap is strictly smaller than the chunk size, because the window
start advances by the positive stride `chunk_size - chunk_overlap` on
every iteration — fuel `words.length` is always enough. -/
theorem chunk_generic_terminates (S V : Nat) (words : List String) (h : V < S) :
    ∃ ws, chunkGenericWindows S V words = some ws :=
  ⟨_, genericWindows_spec S V words (by omega) words.length 0 (by omega)⟩

/-- Witness for C10 at a concrete configuration and input. -/
theorem chunk_generic_terminates_witness :
    ∃ ws, chunkGenericWindows 2 1 ["a", "b", "c"] = some ws :=
  chunk_generic_terminates 2 1 ["a", "b", "c"] (by decide)

/-- Counterexample to claim C3 as stated: for W = 3 tokens, S = 2,
V = 1 the code emits 3 chunks (`["a","b"], ["b","c"], ["c"]`), but the
spec formula `ceil((W-V)/(S-V))` gives 2. -/
theorem chunk_generic_count_counterexample :
    (chunkGenericWindows 2 1 ["a", "b", "c"]).map List.length ≠
      some (((3 - 1) + (2 - 1) - 1) / (2 - 1)) := by decide

/-- Claim C3 as amended: the loop emits `ceil(W/(S-V))` chunks (the
window start visits every multiple of the stride below `W`, so trailing
windows made only of overlap tokens are still emitted), and every chunk
holding the full `S` tokens shares exactly its last `V` tokens with the
next chunk's first `V` tokens. -/
theorem chunk_generic_count_and_overlap (S V : Nat) (words : List String) (h : V < S) :
    ∃ ws, chunkGenericWindows S V words = some ws ∧
      ws.length = (words.length + (S - V) - 1) / (S - V) ∧
      ∀ i ci cj, ws.get? i = some ci → ws.get? (i + 1) = some cj → ci.length = S →
        ci.drop (S - V) = cj.take V ∧ (cj.take V).length = V := by
  have hspec := genericWindows_spec S V words (by omega) words.length 0 (by omega)
  refine ⟨_, hspec, ?_, ?_⟩
  · simp
  · intro i ci cj hci hcj hfull
    set d := S - V with hdd
    set n := (words.length - 0 + d - 1) / d with hn
    have hi : i < n := by
      have := List.get?_eq_some.mp hci
      simpa using this.1
    have hj : i + 1 < n := by
      have := List.get?_eq_some.mp hcj
      simpa using this.1
    have hci' : ci = (words.drop (0 + i * d)).take S := by
      rw [List.get?_map, List.get?_range hi] at hci
      exact (Option.some_inj.mp hci).symm
    have hcj' : cj = (words.drop (0 + (i + 1) * d)).take S := by
      rw [List.get?_map, List.get?_range hj] at hcj
      exact (Option.some_inj.mp hcj).symm
    simp only [Nat.zero_add] at hci' hcj'
    have hlen : i * d + S ≤ words.length := by
      rw [hci'] at hfull
      rw [List.length_take] at hfull
      have hld : (words.drop (i * d)).length = words.length - i * d := by
        simp
      rw [hld] at hfull
      generalize i * d = a at *
      omega
    have hmul : i * d + d = (i + 1) * d := by ring
    have hVS : min V S = V := by omega
    constructor
    · rw [hci', hcj', List.drop_take, List.drop_drop, hmul]
      have hSV : S - (S - V) = V := by omega
      rw [hSV, List.take_take, hVS]
    · rw [hcj', List.take_take, hVS, List.length_take, List.length_drop]
      have : (i + 1) * d + V ≤ words.length := by
        have := hmul
        generalize hi' : i * d = a at *
        omega
      generalize (i + 1) * d = b at *
      omega

/-- Witness for the amended C3 at a concrete input. -/
theorem chunk_generic_count_and_overlap_witness :
    ∃ ws, chunkGenericWindows 2 1 ["a", "b", "c"] = some ws ∧
      ws.length = (([("a" : String), "b", "c"]).length + (2 - 1) - 1) / (2 - 1) ∧
      ∀ i ci cj, ws.get? i = some ci → ws.get? (i + 1) = some cj → ci.length = 2 →
        ci.drop (2 - 1) = cj.take 1 ∧ (cj.take 1).length = 1 :=
  chunk_generic_count_and_overlap 2 1 ["a", "b", "c"] (by decide)

/-! ## Quiz parsing: claim C1 -/

/-- Claim C1 (code bug): the parser is not total.  On the line
`Correct:` with nothing after the colon, `line.split(':')[1].strip()[0]`
indexes the empty string and raises `IndexError`; the embedding returns
`none` exactly there.  The claim (and the spec's "parsing never raises")
describe the clear intent; this input shows the code violating it. -/
theorem parse_quiz_raises_on_bare_correct : parseQuiz "Q1: x\nCorrect:" = none := by
  decide

/-! ## Grading: claims C2, C6, C9 -/

lemma gradeQuiz_total (quiz : Quiz) (answers : Nat → Option String) :
    (gradeQuiz quiz answers).total_questions = quiz.questions.length := rfl

lemma gradeQuiz_correct_le (quiz : Quiz) (answers : Nat → Option String) :
    (gradeQuiz quiz answers).correct ≤ (gradeQuiz quiz answers).total_questions := by
  show (List.filter _ _).length ≤ _
  calc (List.filter _ _).length ≤ (((List.enumFrom 1 quiz.questions)).map _).length :=
        List.length_filter_le _ _
    _ = quiz.questions.length := by simp

lemma gradeQuiz_score_def (quiz : Quiz) (answers : Nat → Option String) :
    (gradeQuiz quiz answers).score =
      if 0 < quiz.questions.length then
        ((gradeQuiz quiz answers).correct : ℚ) / (quiz.questions.length : ℚ) * 100
      else 0 := rfl

/-- A concrete quiz whose single question has no parsed correct-answer
key (as `_parse_quiz` produces when the `Correct:` line is absent). -/
def quizNoKey : Quiz :=
  { topic := "t", num_questions := 1,
    questions := [{ question := "q", options := [], correct := none }], sources := [] }

/-- A concrete quiz whose single question does carry a correct key. -/
def quizWithKey : Quiz :=
  { topic := "t", num_questions := 1,
    questions := [{ question := "x", options := [], correct := some "A" }], sources := [] }

/-- Counterexample to claim C2 as stated: with no supplied answer and no
parsed correct key, `None == None` makes the question count as correct
(`correct = 1`), not incorrect. -/
theorem grade_missing_answer_counterexample :
    ((gradeQuiz quizNoKey (fun _ => none)).results.map (fun it => it.is_correct) = [true]) ∧
      (gradeQuiz quizNoKey (fun _ => none)).correct = 1 := by decide

/-- Claim C2 as amended: a question with no supplied answer is counted
as incorrect exactly when its parsed record carries a correct-answer
key; when that key is also missing, the `None == None` comparison counts
it as correct. -/
theorem grade_missing_answer (quiz : Quiz) (answers : Nat → Option String) (i : Nat)
    (q : QuizQuestion) (hq : quiz.questions.get? i = some q)
    (ha : answers (i + 1) = none) :
    ∃ it, (gradeQuiz quiz answers).results.get? i = some it ∧
      it.user_answer = none ∧ (it.is_correct = true ↔ q.correct = none) := by
  have ha' : answers (1 + i) = none := by rwa [Nat.add_comm 1 i]
  refine ⟨{ question_num := 1 + i, question := q.question, user_answer := answers (1 + i),
            correct_answer := q.correct, is_correct := answers (1 + i) == q.correct },
          ?_, ha', ?_⟩
  · show (List.map _ _).get? i = some _
    rw [List.get?_map, List.get?_enumFrom, hq]
    rfl
  · show ((answers (1 + i) == q.correct) = true ↔ q.correct = none)
    rw [ha']
    cases q.correct <;> simp

/-- Witness for the amended C2: a question with a correct key and no
supplied answer grades as incorrect. -/
theorem grade_missing_answer_witness :
    ∃ it, (gradeQuiz quizWithKey (fun _ => none)).results.get? 0 = some it ∧
      it.user_answer = none ∧
      (it.is_correct = true ↔
        ({ question := "x", options := [], correct := some "A" } : QuizQuestion).correct = none) :=
  grade_missing_answer quizWithKey (fun _ => none) 0 _ rfl rfl

/-- Claim C6: the score is `100 * correct / total` when `total > 0`,
`0` when `total = 0` (the guard, not an exception, avoids the division),
and always lies in `[0, 100]`. -/
theorem grade_quiz_score (quiz : Quiz) (answers : Nat → Option String) :
    ((gradeQuiz quiz answers).total_questions = 0 → (gradeQuiz quiz answers).score = 0) ∧
    (0 < (gradeQuiz quiz answers).total_questions →
      (gradeQuiz quiz answers).score =
        100 * ((gradeQuiz quiz answers).correct : ℚ) /
          ((gradeQuiz quiz answers).total_questions : ℚ)) ∧
    0 ≤ (gradeQuiz quiz answers).score ∧ (gradeQuiz quiz answers).score ≤ 100 := by
  have hle := gradeQuiz_correct_le quiz answers
  rw [gradeQuiz_total] at hle
  by_cases ht : 0 < quiz.questions.length
  · have htQ : (0 : ℚ) < (quiz.questions.length : ℚ) := by exact_mod_cast ht
    have hsc : (gradeQuiz quiz answers).score =
        ((gradeQuiz quiz answers).correct : ℚ) / (quiz.questions.length : ℚ) * 100 := by
      rw [gradeQuiz_score_def, if_pos ht]
    refine ⟨fun h0 => absurd (gradeQuiz_total quiz answers ▸ h0) (by omega), fun _ => ?_, ?_, ?_⟩
    · rw [hsc, gradeQuiz_total]; ring
    · rw [hsc]; positivity
    · rw [hsc]
      have h1 : ((gradeQuiz quiz answers).correct : ℚ) / (quiz.questions.length : ℚ) ≤ 1 :=
        (div_le_one htQ).mpr (by exact_mod_cast hle)
      calc ((gradeQuiz quiz answers).correct : ℚ) / (quiz.questions.length : ℚ) * 100
          ≤ 1 * 100 := by
            exact mul_le_mul_of_nonneg_right h1 (by norm_num)
        _ = 100 := by norm_num
  · have hz : (gradeQuiz quiz answers).score = 0 := by
      rw [gradeQuiz_score_def, if_neg ht]
    exact ⟨fun _ => hz, fun h => absurd (gradeQuiz_total quiz answers ▸ h) ht, by
      rw [hz], by rw [hz]; norm_num⟩

/-- Witness for C6 at a concrete quiz and answer map. -/
theorem grade_quiz_score_witness :
    ((gradeQuiz quizWithKey (fun _ => none)).total_questions = 0 →
      (gradeQuiz quizWithKey (fun _ => none)).score = 0) ∧
    (0 < (gradeQuiz quizWithKey (fun _ => none)).total_questions →
      (gradeQuiz quizWithKey (fun _ => none)).score =
        100 * ((gradeQuiz quizWithKey (fun _ => none)).correct : ℚ) /
          ((gradeQuiz quizWithKey (fun _ => none)).total_questions : ℚ)) ∧
    0 ≤ (gradeQuiz quizWithKey (fun _ => none)).score ∧
    (gradeQuiz quizWithKey (fun _ => none)).score ≤ 100 :=
  grade_quiz_score quizWithKey (fun _ => none)

/-- Claim C9: grading is pure and deterministic — identical quiz and
answers give identical results. -/
theorem grade_quiz_deterministic (q1 q2 : Quiz) (a1 a2 : Nat → Option String)
    (hq : q1 = q2) (ha : a1 = a2) : gradeQuiz q1 a1 = gradeQuiz q2 a2 := by
  rw [hq, ha]

/-- Witness for C9 at a concrete quiz and answer map. -/
theorem grade_quiz_deterministic_witness :
    gradeQuiz quizWithKey (fun _ => none) = gradeQuiz quizWithKey (fun _ => none) :=
  grade_quiz_deterministic quizWithKey quizWithKey (fun _ => none) (fun _ => none) rfl rfl

/-! ## Answer sources: claim C5 -/

def llmStub : String → String := fun _ => "answer"

def retrievedFixture : List RetrievedDoc :=
  [{ text := "t1", source_document := "a", relevance_score := 0 },
   { text := "t2", source_document := "a", relevance_score := 0 },
   { text := "t3", source_document := "b", relevance_score := 0 }]

/-- Counterexample to claim C5 as stated: the code keeps duplicates, so
the `sources` list of the top-3 chunks is `["a", "a", "b"]`, in which an
identifier appears twice. -/
theorem answer_sources_counterexample :
    (generateAnswer llmStub "q" retrievedFixture).sources = ["a", "a", "b"] ∧
      ¬ (generateAnswer llmStub "q" retrievedFixture).sources.Nodup := by decide

/-- Claim C5 as amended: `sources` lists the source-document identifier
of each of the top 3 retrieved chunks, in retrieval order, duplicates
retained (identifiers may repeat). -/
theorem answer_sources (llm : String → String) (query : String)
    (docs : List RetrievedDoc) :
    (generateAnswer llm query docs).sources =
        (docs.take 3).map (fun d => d.source_document) ∧
      (generateAnswer llm query docs).sources.length = min 3 docs.length := by
  exact ⟨rfl, by simp [generateAnswer]⟩

/-! ## Notes chunking: claims C7 and C8 -/

lemma mk_append (a b : List Char) : String.mk a ++ String.mk b = String.mk (a ++ b) := rfl

lemma str_empty_append (s : String) : "" ++ s = s := by
  cases s
  rfl

lemma append_newline_ne_empty (s : String) : s ++ "\n" ≠ "" := by
  intro h
  have hlen := congrArg String.length h
  rw [String.length_append] at hlen
  have h1 : ("\n" : String).length = 1 := rfl
  have h2 : ("" : String).length = 0 := rfl
  omega

lemma splitOnCharAux_ne_nil (sep : Char) :
    ∀ (cs acc : List Char), splitOnCharAux sep acc cs ≠ []
  | [], _ => by simp [splitOnCharAux]
  | c :: cs, acc => by
    by_cases h : c = sep
    · simp [splitOnCharAux, h]
    · simpa [splitOnCharAux, h] using splitOnCharAux_ne_nil sep cs (c :: acc)

lemma splitOnChar_ne_nil (sep : Char) (s : String) : splitOnChar sep s ≠ [] :=
  splitOnCharAux_ne_nil sep s.data []

lemma notesLoop_nil (S : Nat) (doc : Document) (heading sec : String)
    (chunks : List Chunk) :
    notesLoop S doc [] heading sec chunks = notesFlush doc heading sec chunks := rfl

lemma notesLoop_cons (S : Nat) (doc : Document) (line : String) (rest : List String)
    (heading sec : String) (chunks : List Chunk) :
    notesLoop S doc (line :: rest) heading sec chunks =
      notesLoop S doc rest (notesStep S doc line heading sec chunks).1
        (notesStep S doc line heading sec chunks).2.1
        (notesStep S doc line heading sec chunks).2.2 := rfl

/-- After one iteration, either a chunk has been flushed or the pending
section ends in a newline; in particular the new state is never
(empty chunks, empty section). -/
lemma notesStep_progress (S : Nat) (doc : Document) (line heading sec : String)
    (chunks : List Chunk) :
    (notesStep S doc line heading sec chunks).2.2 ≠ [] ∨
      (notesStep S doc line heading sec chunks).2.1 ≠ "" := by
  unfold notesStep
  by_cases hH : isHeading (pyStrip line) = true
  · simp only [hH, if_true]
    by_cases hF : 3 * S < 2 * (pySplitWs (pyStrip line ++ "\n")).length
    · exact Or.inl (by simp [hF])
    · exact Or.inr (by simp [hF, append_newline_ne_empty])
  · simp only [Bool.not_eq_true] at hH
    simp only [hH, Bool.false_eq_true, if_false]
    by_cases hF : 3 * S < 2 * (pySplitWs (sec ++ line ++ "\n")).length
    · exact Or.inl (by simp [hF])
    · exact Or.inr (by simp [hF, append_newline_ne_empty])

/-- The line pass of `_chunk_notes` always yields at least one chunk:
every iteration leaves either a pending section ending in a newline or
an already-flushed chunk, and the final flush emits the pending
section. -/
lemma notesLoop_ne_nil (S : Nat) (doc : Document) :
    ∀ (lines : List String) (heading sec : String) (chunks : List Chunk),
      (chunks ≠ [] ∨ sec ≠ "" ∨ lines ≠ []) →
      notesLoop S doc lines heading sec chunks ≠ [] := by
  intro lines
  induction lines with
  | nil =>
    intro heading sec chunks h
    rw [notesLoop_nil, notesFlush]
    by_cases hs : sec = ""
    · have hc : chunks ≠ [] := by
        rcases h with h | h | h
        · exact h
        · exact absurd hs h
        · exact absurd rfl h
      simpa [hs] using hc
    · simp [hs]
  | cons line rest ih =>
    intro heading sec chunks _
    rw [notesLoop_cons]
    rcases notesStep_progress S doc line heading sec chunks with h | h
    · exact ih _ _ _ (Or.inl h)
    · exact ih _ _ _ (Or.inr (Or.inl h))

/-- A concrete empty notes document. -/
def emptyNotesDoc : Document :=
  { filename := "empty", full_text := "", doc_type := "notes", course := "c",
    course_code := "cc" }

/-- Counterexample to claim C8 as stated: on a document with empty full
text the heading pass still emits one chunk (the accumulated `"\n"`,
stripped to `""`, under heading "Introduction"), so `_chunk_notes` does
not return the generic strategy's result (which is the empty chunk
list). -/
theorem chunk_notes_empty_counterexample :
    chunkNotes 512 50 emptyNotesDoc ≠ chunkGenericChunks 512 50 emptyNotesDoc := by
  decide

/-- Claim C8 as amended: the heading pass never produces zero chunks —
in particular not on an empty document — so the generic fallback on the
empty-pass condition, though present in the code, never fires:
`_chunk_notes` always returns the pass's own chunks. -/
theorem chunk_notes_fallback_dead (S V : Nat) (doc : Document) :
    notesLoop S doc (splitOnChar '\n' doc.full_text) "Introduction" "" [] ≠ [] ∧
      chunkNotes S V doc =
        some (notesLoop S doc (splitOnChar '\n' doc.full_text) "Introduction" "" []) := by
  have h1 : notesLoop S doc (splitOnChar '\n' doc.full_text) "Introduction" "" [] ≠ [] :=
    notesLoop_ne_nil S doc _ _ _ _ (Or.inr (Or.inr (splitOnChar_ne_nil '\n' _)))
  refine ⟨h1, ?_⟩
  have h2 : (notesLoop S doc (splitOnChar '\n' doc.full_text) "Introduction" "" []).isEmpty
      = false := by
    rw [List.isEmpty_eq_false]
    exact h1
  simp only [chunkNotes, h2]
  rfl

/-! ### Claim C7: notes documents without headings -/

lemma data_empty : ("" : String).data = [] := rfl

lemma data_newline : ("\n" : String).data = ['\n'] := rfl

/-- Concatenation of lines with a `"\n"` after each, as the notes pass
accumulates them. -/
def concatNL : List String → String
  | [] => ""
  | l :: r => l ++ "\n" ++ concatNL r

lemma concatNL_splitOnCharAux :
    ∀ (cs acc : List Char),
      concatNL (splitOnCharAux '\n' acc cs) = String.mk acc.reverse ++ String.mk cs ++ "\n"
  | [], acc => by
    apply String.ext
    simp [splitOnCharAux, concatNL, String.data_append, data_empty, data_newline]
  | c :: cs, acc => by
    by_cases h : c = '\n'
    · subst h
      rw [splitOnCharAux]
      simp only [if_pos rfl]
      simp only [concatNL]
      rw [concatNL_splitOnCharAux cs []]
      apply String.ext
      simp [String.data_append, data_empty, data_newline]
    · rw [splitOnCharAux]
      simp only [if_neg h]
      rw [concatNL_splitOnCharAux cs (c :: acc)]
      apply String.ext
      simp [String.data_append, data_newline]

/-- Splitting on newlines and re-appending a newline after each piece
reconstructs the text plus one trailing newline. -/
lemma concatNL_split (s : String) : concatNL (splitOnChar '\n' s) = s ++ "\n" := by
  rw [splitOnChar, concatNL_splitOnCharAux]
  apply String.ext
  simp [String.data_append, data_empty, data_newline]

lemma splitWsAux_len_ge_flush :
    ∀ (cs acc : List Char),
      (if acc.isEmpty then 0 else 1) ≤ (splitWsAux acc cs).length
  | [], acc => by
    rw [splitWsAux]
    split <;> simp
  | c :: cs, acc => by
    rw [splitWsAux]
    by_cases hw : c.isWhitespace
    · rw [if_pos hw, List.length_append]
      split <;> simp
    · rw [if_neg hw]
      have := splitWsAux_len_ge_flush cs (c :: acc)
      simp at this
      split <;> omega

/-- Appending text never decreases the Python `str.split()` token
count. -/
lemma splitWsAux_append_le :
    ∀ (cs acc ys : List Char),
      (splitWsAux acc cs).length ≤ (splitWsAux acc (cs ++ ys)).length
  | [], acc, ys => by
    rw [List.nil_append, splitWsAux]
    have := splitWsAux_len_ge_flush ys acc
    split <;> simp_all
  | c :: cs, acc, ys => by
    rw [List.cons_append, splitWsAux, splitWsAux]
    by_cases hw : c.isWhitespace
    · rw [if_pos hw, if_pos hw, List.length_append, List.length_append]
      have := splitWsAux_append_le cs [] ys
      omega
    · rw [if_neg hw, if_neg hw]
      exact splitWsAux_append_le cs (c :: acc) ys

lemma pySplitWs_mono (a b : String) :
    (pySplitWs a).length ≤ (pySplitWs (a ++ b)).length := by
  rw [pySplitWs, pySplitWs, String.data_append]
  exact splitWsAux_append_le a.data [] b.data

/-- A trailing newline adds no `str.split()` token. -/
lemma splitWsAux_newline :
    ∀ (cs acc : List Char),
      (splitWsAux acc (cs ++ ['\n'])).length = (splitWsAux acc cs).length
  | [], acc => by
    rw [List.nil_append, splitWsAux, splitWsAux]
    rw [if_pos (by decide : ('\n').isWhitespace = true)]
    rw [splitWsAux]
    simp
  | c :: cs, acc => by
    rw [List.cons_append, splitWsAux, splitWsAux]
    by_cases hw : c.isWhitespace
    · rw [if_pos hw, if_pos hw, List.length_append, List.length_append,
        splitWsAux_newline cs []]
    · rw [if_neg hw, if_neg hw]
      exact splitWsAux_newline cs (c :: acc)

lemma pySplitWs_newline (s : String) :
    (pySplitWs (s ++ "\n")).length = (pySplitWs s).length := by
  rw [pySplitWs, pySplitWs, String.data_append, data_newline]
  exact splitWsAux_newline s.data []

/-- A non-heading line that does not trip the size flush just extends
the current section. -/
lemma notesStep_plain (S : Nat) (doc : Document) (line heading sec : String)
    (chunks : List Chunk) (hH : isHeading (pyStrip line) = false)
    (hF : ¬ 3 * S < 2 * (pySplitWs (sec ++ line ++ "\n")).length) :
    notesStep S doc line heading sec chunks = (heading, sec ++ line ++ "\n", chunks) := by
  unfold notesStep
  simp only [hH, Bool.false_eq_true, if_false]
  rw [if_neg hF]

/-- On a heading-free document whose token count stays within the
`1.5 * chunk_size` budget, the line pass accumulates everything into a
single section under the incoming heading. -/
lemma notesLoop_no_heading (S : Nat) (doc : Document) :
    ∀ (lines : List String) (heading sec : String) (chunks : List Chunk),
      (∀ l ∈ lines, isHeading (pyStrip l) = false) →
      2 * (pySplitWs (sec ++ concatNL lines)).length ≤ 3 * S →
      sec ++ concatNL lines ≠ "" →
      notesLoop S doc lines heading sec chunks =
        chunks ++ [createChunk (sec ++ concatNL lines) doc "section"
          (ChunkMeta.sectionHeading heading)] := by
  intro lines
  induction lines with
  | nil =>
    intro heading sec chunks _ _ hne
    have hsec : sec ++ concatNL [] = sec := by
      apply String.ext
      simp [concatNL, String.data_append, data_empty]
    rw [hsec] at hne ⊢
    rw [notesLoop_nil, notesFlush, if_neg hne]
  | cons line rest ih =>
    intro heading sec chunks hh hb hne
    have hH : isHeading (pyStrip line) = false := hh line (List.mem_cons_self _ _)
    have hassoc : sec ++ concatNL (line :: rest) = (sec ++ line ++ "\n") ++ concatNL rest := by
      apply String.ext
      simp [concatNL, String.data_append, data_newline]
    rw [hassoc] at hb hne ⊢
    have hb1 : 2 * (pySplitWs (sec ++ line ++ "\n")).length ≤ 3 * S := by
      have := pySplitWs_mono (sec ++ line ++ "\n") (concatNL rest)
      omega
    have hF : ¬ 3 * S < 2 * (pySplitWs (sec ++ line ++ "\n")).length := by omega
    rw [notesLoop_cons, notesStep_plain S doc line heading sec chunks hH hF]
    exact ih heading (sec ++ line ++ "\n") chunks
      (fun l hl => hh l (List.mem_cons_of_mem _ hl)) hb hne

/-- A concrete heading-free notes document that trips the size flush
when `chunk_size = 1`. -/
def longNotesDoc : Document :=
  { filename := "n3", full_text := "a b\nc", doc_type := "notes", course := "c",
    course_code := "cc" }

/-- Counterexample to claim C7 as stated: a heading-free document can
still produce more than one chunk, because the pass force-flushes any
section whose running word count exceeds `1.5 * chunk_size` (here
`chunk_size = 1`, so `"a b"` is flushed and `"c"` follows). -/
theorem chunk_notes_count_counterexample :
    (∀ l ∈ splitOnChar '\n' longNotesDoc.full_text, isHeading (pyStrip l) = false) ∧
      (chunkNotes 1 0 longNotesDoc).map List.length = some 2 := by decide

/-- Claim C7 as amended: a notes document none of whose lines is a
heading, and whose total `str.split()` token count is at most
`1.5 * chunk_size`, produces exactly one chunk, tagged with section
heading "Introduction", whose text is the full text plus the trailing
newline the pass appends (stripped by chunk creation). -/
theorem chunk_notes_no_heading_single (S V : Nat) (doc : Document)
    (hh : ∀ l ∈ splitOnChar '\n' doc.full_text, isHeading (pyStrip l) = false)
    (hb : 2 * (pySplitWs doc.full_text).length ≤ 3 * S) :
    chunkNotes S V doc =
      some [createChunk (doc.full_text ++ "\n") doc "section"
        (ChunkMeta.sectionHeading "Introduction")] := by
  have hsec0 : ("" : String) ++ concatNL (splitOnChar '\n' doc.full_text) =
      doc.full_text ++ "\n" := by
    rw [str_empty_append, concatNL_split]
  have hkey := notesLoop_no_heading S doc (splitOnChar '\n' doc.full_text)
    "Introduction" "" [] hh
    (by rw [hsec0, pySplitWs_newline]; exact hb)
    (by rw [hsec0]; exact append_newline_ne_empty _)
  rw [hsec0] at hkey
  rw [List.nil_append] at hkey
  simp only [chunkNotes, hkey]
  rfl

/-- A concrete heading-free notes document inside the size budget. -/
def plainNotesDoc : Document :=
  { filename := "n2", full_text := "hello world", doc_type := "notes", course := "c",
    course_code := "cc" }

/-- Witness for the amended C7 at a concrete document and
configuration. -/
theorem chunk_notes_no_heading_single_witness :
    chunkNotes 2 0 plainNotesDoc =
      some [createChunk (plainNotesDoc.full_text ++ "\n") plainNotesDoc "section"
        (ChunkMeta.sectionHeading "Introduction")] :=
  chunk_notes_no_heading_single 2 0 plainNotesDoc (by decide) (by decide)

/-! ## Past-paper chunking: claim C4 -/

lemma ws_cases (c : Char) (h : c.isWhitespace = true) :
    c = ' ' ∨ c = '\t' ∨ c = '\r' ∨ c = '\n' := by
  have h2 := h
  simp [Char.isWhitespace] at h2
  tauto

lemma isDigit_not_ws (c : Char) (h : c.isDigit = true) : c.isWhitespace = false := by
  by_contra hw
  rw [Bool.not_eq_false] at hw
  rcases ws_cases c hw with rfl | rfl | rfl | rfl <;> exact absurd h (by decide)

lemma punctQ_cases (p : Char) (h : isPunctQ p = true) : p = '.' ∨ p = ')' ∨ p = ':' := by
  have h2 := h
  simp [isPunctQ] at h2
  tauto

lemma punctQ_not_digit (p : Char) (h : isPunctQ p = true) : p.isDigit = false := by
  rcases punctQ_cases p h with rfl | rfl | rfl <;> decide

lemma punctQ_not_ws (p : Char) (h : isPunctQ p = true) : p.isWhitespace = false := by
  rcases punctQ_cases p h with rfl | rfl | rfl <;> decide

lemma qQ_not_ws (c : Char) (h : c = 'Q' ∨ c = 'q') : c.isWhitespace = false := by
  rcases h with rfl | rfl <;> decide

lemma digit_toLower (c : Char) (h : c.isDigit = true) : c.toLower = c := by
  rw [Char.isDigit, Bool.and_eq_true, decide_eq_true_eq, decide_eq_true_eq] at h
  have h2 : c.val.toNat ≤ 57 := UInt32.toNat_le_of_le (by norm_num [UInt32.size]) h.2
  simp only [Char.toLower, Char.toNat]
  rw [if_neg]
  omega

lemma toLower_u_not_digit (c : Char) (h : c.toLower = 'u') : c.isDigit = false := by
  by_contra hd
  rw [Bool.not_eq_false] at hd
  rw [digit_toLower c hd] at h
  subst h
  exact absurd hd (by decide)

lemma toLower_q_not_ws (c : Char) (h : c.toLower = 'q') : c.isWhitespace = false := by
  by_contra hw
  rw [Bool.not_eq_false] at hw
  rcases ws_cases c hw with rfl | rfl | rfl | rfl <;> exact absurd h (by decide)

/-- `takeWhile`/`dropWhile` across a run followed by a stopping
element. -/
lemma takeWhile_run (f : Char → Bool) (xs : List Char) (y : Char) (zs : List Char)
    (hx : ∀ a ∈ xs, f a = true) (hy : f y = false) :
    (xs ++ y :: zs).takeWhile f = xs ∧ (xs ++ y :: zs).dropWhile f = y :: zs := by
  constructor
  · rw [List.takeWhile_append_of_pos hx, List.takeWhile_cons, hy]
    simp
  · rw [List.dropWhile_append_of_pos hx, List.dropWhile_cons, hy]
    simp

/-- Successful `matchQNum` results have the shape
`Q/q ++ digits ++ punctuation` and consume a prefix of the input. -/
lemma matchQNum_eq_some (cs m r : List Char) (h : matchQNum cs = some (m, r)) :
    ∃ c ds p, (c = 'Q' ∨ c = 'q') ∧ ds ≠ [] ∧ (∀ d ∈ ds, d.isDigit = true) ∧
      isPunctQ p = true ∧ m = c :: (ds ++ [p]) ∧ cs = m ++ r := by
  cases cs with
  | nil => exact absurd h (by simp [matchQNum])
  | cons c t =>
    rw [matchQNum] at h
    split at h
    · rename_i hq
      split at h
      · rename_i d ds' p rest htake hdrop
        split at h
        · rename_i hp
          rw [Option.some_inj] at h
          have hm : c :: (t.takeWhile Char.isDigit ++ [p]) = m :=
            congrArg Prod.fst h
          have hr : rest = r := congrArg Prod.snd h
          refine ⟨c, t.takeWhile Char.isDigit, p, ?_, ?_, ?_, hp, hm.symm, ?_⟩
          · simpa using hq
          · rw [htake]; simp
          · exact fun x hx => List.mem_takeWhile_imp hx
          · rw [← hm, ← hr]
            have hid : t.takeWhile Char.isDigit ++ t.dropWhile Char.isDigit = t :=
              List.takeWhile_append_dropWhile Char.isDigit t
            rw [hdrop] at hid
            calc c :: t = c :: (t.takeWhile Char.isDigit ++ (p :: rest)) := by rw [hid]
              _ = c :: (t.takeWhile Char.isDigit ++ [p]) ++ rest := by simp
        · exact absurd h (by simp)
      · exact absurd h (by simp)
    · exact absurd h (by simp)

/-- `matchQNum` matches again on its own output followed by anything. -/
lemma matchQNum_eval (c : Char) (ds : List Char) (p : Char) (r : List Char)
    (hc : c = 'Q' ∨ c = 'q') (hds : ds ≠ []) (hd : ∀ d ∈ ds, d.isDigit = true)
    (hp : isPunctQ p = true) :
    matchQNum ((c :: (ds ++ [p])) ++ r) = some (c :: (ds ++ [p]), r) := by
  have hnd : p.isDigit = false := punctQ_not_digit p hp
  have hsplit := takeWhile_run Char.isDigit ds p r hd hnd
  have harr : (c :: (ds ++ [p])) ++ r = c :: (ds ++ p :: r) := by simp
  obtain ⟨d, ds', rfl⟩ := List.exists_cons_of_ne_nil hds
  rw [harr, matchQNum]
  rw [if_pos (by rcases hc with rfl | rfl <;> simp)]
  rw [hsplit.1, hsplit.2]
  show (if isPunctQ p = true then some (c :: (d :: ds' ++ [p]), r) else none) =
    some (c :: (d :: ds' ++ [p]), r)
  rw [if_pos hp]

lemma stripLitCI_self : ∀ (pre u : List Char),
    stripLitCI (pre.map Char.toLower) (pre ++ u) = some u
  | [], u => rfl
  | c :: pre, u => by
    rw [List.map_cons, List.cons_append, stripLitCI, if_pos rfl]
    exact stripLitCI_self pre u

lemma stripLitCI_some : ∀ (ps cs t : List Char), stripLitCI ps cs = some t →
    ∃ pre, cs = pre ++ t ∧ pre.map Char.toLower = ps
  | [], cs, t, h => ⟨[], by simpa [stripLitCI] using Option.some_inj.mp h, rfl⟩
  | p :: ps, [], t, h => absurd h (by simp [stripLitCI])
  | p :: ps, c :: cs, t, h => by
    rw [stripLitCI] at h
    split at h
    · rename_i htl
      obtain ⟨pre, hcs, hmap⟩ := stripLitCI_some ps cs t h
      exact ⟨c :: pre, by simp [hcs], by simp [hmap, htl]⟩
    · exact absurd h (by simp)

/-- Successful `matchQuestionWord` results have the shape
`Question ++ whitespace ++ digits ++ punctuation` (letters in any case)
and consume a prefix of the input. -/
lemma matchQuestionWord_eq_some (cs m r : List Char)
    (h : matchQuestionWord cs = some (m, r)) :
    ∃ pre ws ds p, pre.map Char.toLower = "question".data ∧
      ws ≠ [] ∧ (∀ a ∈ ws, a.isWhitespace = true) ∧
      ds ≠ [] ∧ (∀ d ∈ ds, d.isDigit = true) ∧ isPunctQ p = true ∧
      m = pre ++ (ws ++ (ds ++ [p])) ∧ cs = m ++ r := by
  rw [matchQuestionWord] at h
  split at h
  · exact absurd h (by simp)
  · rename_i t hstrip
    split at h
    · exact absurd h (by simp)
    · rename_i w ws' htake
      split at h
      · rename_i d ds' p rest htake2 hdrop2
        split at h
        · rename_i hp
          rw [Option.some_inj] at h
          have hm : cs.take 8 ++ (t.takeWhile Char.isWhitespace ++
              ((t.dropWhile Char.isWhitespace).takeWhile Char.isDigit ++ [p])) = m :=
            congrArg Prod.fst h
          have hr : rest = r := congrArg Prod.snd h
          obtain ⟨pre, hcs, hmap⟩ := stripLitCI_some _ _ _ hstrip
          have hlen : pre.length = 8 := by
            have := congrArg List.length hmap
            simpa using this
          have htk : cs.take 8 = pre := by
            rw [hcs, List.take_append_of_le_length (by omega), List.take_of_length_le (by omega)]
          have ht : t.takeWhile Char.isWhitespace ++ t.dropWhile Char.isWhitespace = t :=
            List.takeWhile_append_dropWhile _ _
          have ht2 : (t.dropWhile Char.isWhitespace).takeWhile Char.isDigit ++ (p :: rest) =
              t.dropWhile Char.isWhitespace := by
            rw [← hdrop2]
            exact List.takeWhile_append_dropWhile _ _
          refine ⟨pre, t.takeWhile Char.isWhitespace,
            (t.dropWhile Char.isWhitespace).takeWhile Char.isDigit, p,
            hmap, by rw [htake]; simp, ?_, by rw [htake2]; simp, ?_, hp, ?_, ?_⟩
          · exact fun a ha => List.mem_takeWhile_imp ha
          · exact fun x hx => List.mem_takeWhile_imp hx
          · rw [← hm, htk]
          · rw [← hm, ← hr, htk, hcs]
            conv_lhs => rw [← ht, ← ht2]
            simp
        · exact absurd h (by simp)
      · exact absurd h (by simp)

/-- `matchQuestionWord` matches again on its own output followed by
anything. -/
lemma matchQuestionWord_eval (pre ws ds : List Char) (p : Char) (r : List Char)
    (hpre : pre.map Char.toLower = "question".data)
    (hws : ws ≠ []) (hwsall : ∀ a ∈ ws, a.isWhitespace = true)
    (hds : ds ≠ []) (hdall : ∀ d ∈ ds, d.isDigit = true)
    (hp : isPunctQ p = true) :
    matchQuestionWord ((pre ++ (ws ++ (ds ++ [p]))) ++ r) =
      some (pre ++ (ws ++ (ds ++ [p])), r) := by
  obtain ⟨d, ds', rfl⟩ := List.exists_cons_of_ne_nil hds
  obtain ⟨w, ws', rfl⟩ := List.exists_cons_of_ne_nil hws
  have hlen : pre.length = 8 := by
    have := congrArg List.length hpre
    simpa using this
  have harr : (pre ++ ((w :: ws') ++ ((d :: ds') ++ [p]))) ++ r =
      pre ++ ((w :: ws') ++ ((d :: ds') ++ (p :: r))) := by simp
  have hstrip : stripLitCI "question".data
      (pre ++ ((w :: ws') ++ ((d :: ds') ++ (p :: r)))) =
      some ((w :: ws') ++ ((d :: ds') ++ (p :: r))) := by
    rw [← hpre]
    exact stripLitCI_self pre _
  have hrun1 := takeWhile_run Char.isWhitespace (w :: ws') d (ds' ++ p :: r)
    hwsall (isDigit_not_ws d (hdall d (by simp)))
  have harr1 : (w :: ws') ++ ((d :: ds') ++ (p :: r)) =
      (w :: ws') ++ d :: (ds' ++ p :: r) := by simp
  have hrun2 := takeWhile_run Char.isDigit (d :: ds') p r hdall (punctQ_not_digit p hp)
  have harr2 : (d :: ds') ++ (p :: r) = (d :: ds') ++ p :: r := rfl
  rw [harr, matchQuestionWord, hstrip]
  show (match ((w :: ws') ++ ((d :: ds') ++ (p :: r))).takeWhile Char.isWhitespace,
      ((w :: ws') ++ ((d :: ds') ++ (p :: r))).dropWhile Char.isWhitespace with
    | [], _ => none
    | _ :: _, t2 =>
      match t2.takeWhile Char.isDigit, t2.dropWhile Char.isDigit with
      | _ :: _, p' :: rest =>
        if isPunctQ p' then
          some ((pre ++ ((w :: ws') ++ ((d :: ds') ++ (p :: r)))).take 8 ++
            ((((w :: ws') ++ ((d :: ds') ++ (p :: r))).takeWhile Char.isWhitespace) ++
              (t2.takeWhile Char.isDigit ++ [p'])), rest)
        else none
      | _, _ => none) = some (pre ++ ((w :: ws') ++ ((d :: ds') ++ [p])), r)
  rw [harr1, hrun1.1, hrun1.2]
  show (match ((d :: ds') ++ p :: r).takeWhile Char.isDigit,
      ((d :: ds') ++ p :: r).dropWhile Char.isDigit with
    | _ :: _, p' :: rest =>
      if isPunctQ p' then
        some ((pre ++ ((w :: ws') ++ ((d :: ds') ++ (p :: r)))).take 8 ++
          ((w :: ws') ++ (((d :: ds') ++ p :: r).takeWhile Char.isDigit ++ [p'])), rest)
      else none
    | _, _ => none) = some (pre ++ ((w :: ws') ++ ((d :: ds') ++ [p])), r)
  rw [hrun2.1, hrun2.2]
  show (if isPunctQ p then
      some ((pre ++ ((w :: ws') ++ ((d :: ds') ++ (p :: r)))).take 8 ++
        ((w :: ws') ++ ((d :: ds') ++ [p])), r)
    else none) = some (pre ++ ((w :: ws') ++ ((d :: ds') ++ [p])), r)
  rw [if_pos hp]
  have htk : (pre ++ ((w :: ws') ++ ((d :: ds') ++ (p :: r)))).take 8 = pre := by
    rw [List.take_append_of_le_length (by omega), List.take_of_length_le (by omega)]
  rw [htk]

lemma matchQNum_none_of_second_not_digit (a b : Char) (X : List Char)
    (hb : b.isDigit = false) : matchQNum (a :: b :: X) = none := by
  rw [matchQNum]
  by_cases haq : (a = 'Q' || a = 'q') = true
  · rw [if_pos haq]
    have ht : (b :: X).takeWhile Char.isDigit = [] := by
      simp [List.takeWhile_cons, hb]
    rw [ht]
  · rw [if_neg haq]

/-- A marker string; the test the `for part in parts` loop applies when
modelling `re.match(question_pattern, part, re.IGNORECASE)`. -/
def isMarkerStr (s : String) : Bool := (matchMarker s.data).isSome

/-- Everything the development needs about a successful marker match:
the match consumes a prefix, re-matches on itself followed by anything
(hence `re.split` segments never begin with a marker), and begins and
ends with a non-whitespace character. -/
lemma matchMarker_facts (cs m r : List Char) (h : matchMarker cs = some (m, r)) :
    cs = m ++ r ∧ (∀ ys, matchMarker (m ++ ys) = some (m, ys)) ∧
      ∃ c0 mid p, m = c0 :: (mid ++ [p]) ∧ c0.isWhitespace = false ∧
        p.isWhitespace = false := by
  rw [matchMarker] at h
  split at h
  · rename_i pr hq
    rw [Option.some_inj] at h
    subst h
    obtain ⟨c, ds, p, hc, hds, hdall, hp, hm, hcs⟩ := matchQNum_eq_some cs m r hq
    refine ⟨hcs, ?_, c, ds, p, hm, qQ_not_ws c hc, punctQ_not_ws p hp⟩
    intro ys
    rw [hm, matchMarker, matchQNum_eval c ds p ys hc hds hdall hp]
  · rename_i hq
    obtain ⟨pre, ws, ds, p, hmap, hws, hwsall, hds, hdall, hp, hm, hcs⟩ :=
      matchQuestionWord_eq_some cs m r h
    have hlit : ("question".data : List Char) = ['q', 'u', 'e', 's', 't', 'i', 'o', 'n'] := rfl
    obtain ⟨a, b, pre2, hpre, ha, hb⟩ :
        ∃ a b pre2, pre = a :: b :: pre2 ∧ a.toLower = 'q' ∧ b.toLower = 'u' := by
      rw [hlit] at hmap
      cases pre with
      | nil => exact absurd hmap (by simp)
      | cons a rest =>
        cases rest with
        | nil => exact absurd hmap (by simp)
        | cons b pre2 =>
          rw [List.map_cons, List.map_cons] at hmap
          injection hmap with h1 hmap2
          injection hmap2 with h2 _
          exact ⟨a, b, pre2, rfl, h1, h2⟩
    have hbd : b.isDigit = false := toLower_u_not_digit b hb
    refine ⟨hcs, ?_, a, (b :: pre2) ++ (ws ++ ds), p, ?_, toLower_q_not_ws a ha,
      punctQ_not_ws p hp⟩
    · intro ys
      have hnone : matchQNum (m ++ ys) = none := by
        have harr : m ++ ys = a :: b :: (pre2 ++ (ws ++ (ds ++ [p])) ++ ys) := by
          rw [hm, hpre]
          simp
        rw [harr]
        exact matchQNum_none_of_second_not_digit a b _ hbd
      rw [matchMarker, hnone]
      have := matchQuestionWord_eval pre ws ds p ys hmap hws hwsall hds hdall hp
      rw [hm]
      exact this
    · rw [hm, hpre]
      simp

/-- `rstripL` over a list ending in a protected non-whitespace
character. -/
lemma rstripL_append (A : List Char) (q : Char) (hq : q.isWhitespace = false)
    (B : List Char) : rstripL ((A ++ [q]) ++ B) = (A ++ [q]) ++ rstripL B := by
  unfold rstripL
  rw [List.reverse_append, List.dropWhile_append]
  split
  · rename_i hemp
    have h1 : (A ++ [q]).reverse = q :: A.reverse := by simp
    have h2 : (q :: A.reverse).dropWhile Char.isWhitespace = q :: A.reverse := by
      simp [List.dropWhile_cons, hq]
    rw [h1, h2]
    have h3 : (B.reverse.dropWhile Char.isWhitespace).reverse = [] := by
      rw [List.isEmpty_iff] at hemp
      rw [hemp]
      rfl
    simp [h3]
  · simp

/-- Stripping text that begins with a marker leaves the marker intact
at the front. -/
lemma pyStrip_marker (c0 : Char) (mid : List Char) (p : Char)
    (hc : c0.isWhitespace = false) (hp : p.isWhitespace = false) (t : List Char) :
    ∃ u, pyStrip (String.mk ((c0 :: (mid ++ [p])) ++ t)) =
      String.mk ((c0 :: (mid ++ [p])) ++ u) := by
  refine ⟨rstripL t, ?_⟩
  unfold pyStrip
  have hdata : (String.mk ((c0 :: (mid ++ [p])) ++ t)).data =
      (c0 :: (mid ++ [p])) ++ t := rfl
  rw [hdata]
  have hld : ((c0 :: (mid ++ [p])) ++ t).dropWhile Char.isWhitespace =
      (c0 :: (mid ++ [p])) ++ t := by
    rw [List.cons_append]
    simp [List.dropWhile_cons, hc]
  rw [hld]
  have harr : (c0 :: (mid ++ [p])) ++ t = ((c0 :: mid) ++ [p]) ++ t := by simp
  rw [harr, rstripL_append (c0 :: mid) p hp t]
  apply String.ext
  simp

/-- Marker/segment pairs flattened back into the parts list. -/
def flatPairs : List (String × String) → List String
  | [] => []
  | (m, s) :: r => m :: s :: flatPairs r

lemma flatPairs_length : ∀ (pairs : List (String × String)),
    (flatPairs pairs).length = 2 * pairs.length
  | [] => rfl
  | (m, s) :: r => by
    rw [flatPairs]
    simp [flatPairs_length r]
    omega

lemma altMarkers_flat : ∀ (pairs : List (String × String)) (x : String),
    altMarkers (x :: flatPairs pairs) = pairs.map Prod.fst
  | [], _ => rfl
  | (m, s) :: r, x => by
    show altMarkers (x :: m :: (s :: flatPairs r)) = m :: r.map Prod.fst
    rw [altMarkers, altMarkers_flat r s]

/-- The `re.split` model always produces a leading segment followed by
alternating marker/segment pairs; markers match the pattern at their
start, segments do not. -/
lemma splitQAux_shape :
    ∀ (fuel : Nat) (cs acc : List Char), cs.length ≤ fuel →
      (acc = [] ∨ matchMarker (acc.reverse ++ cs) = none) →
      ∃ s0 pairs, splitQAux fuel acc cs = s0 :: flatPairs pairs ∧
        isMarkerStr s0 = false ∧
        ∀ pr ∈ pairs, matchMarker pr.1.data = some (pr.1.data, []) ∧
          isMarkerStr pr.2 = false := by
  intro fuel
  induction fuel with
  | zero =>
    intro cs acc hlen hinv
    have hcs : cs = [] := List.length_eq_zero.mp (Nat.le_zero.mp hlen)
    subst hcs
    refine ⟨String.mk (acc.reverse ++ []), [], rfl, ?_, by simp [flatPairs]⟩
    rw [isMarkerStr]
    rcases hinv with rfl | h
    · rfl
    · show (matchMarker (acc.reverse ++ [])).isSome = false
      rw [h]
      rfl
  | succ fuel ih =>
    intro cs acc hlen hinv
    cases cs with
    | nil =>
      refine ⟨String.mk acc.reverse, [], rfl, ?_, by simp [flatPairs]⟩
      rw [isMarkerStr]
      rcases hinv with rfl | h
      · rfl
      · rw [List.append_nil] at h
        show (matchMarker acc.reverse).isSome = false
        rw [h]
        rfl
    | cons c cs' =>
      cases hm : matchMarker (c :: cs') with
      | some pr =>
        obtain ⟨m, rest⟩ := pr
        have heq : splitQAux (fuel + 1) acc (c :: cs') =
            String.mk acc.reverse :: String.mk m :: splitQAux fuel [] rest := by
          rw [splitQAux, hm]
        obtain ⟨hcs, hself, hshape⟩ := matchMarker_facts _ _ _ hm
        have hmne : m ≠ [] := by
          obtain ⟨c0, mid, p, hm0, _, _⟩ := hshape
          rw [hm0]
          simp
        have hml : 1 ≤ m.length := by
          cases m with
          | nil => exact absurd rfl hmne
          | cons a b => simp
        have hrestlen : rest.length ≤ fuel := by
          have hlc := congrArg List.length hcs
          simp [List.length_append] at hlc
          simp at hlen
          omega
        obtain ⟨s0', pairs', hsplit', hs0', hpairs'⟩ := ih rest [] hrestlen (Or.inl rfl)
        refine ⟨String.mk acc.reverse, (String.mk m, s0') :: pairs', ?_, ?_, ?_⟩
        · rw [heq, hsplit']
          rfl
        · rw [isMarkerStr]
          rcases hinv with rfl | h
          · rfl
          · by_contra habs
            rw [Bool.not_eq_false, Option.isSome_iff_exists] at habs
            obtain ⟨pr2, h2⟩ := habs
            obtain ⟨m2, r2⟩ := pr2
            obtain ⟨hacc, hself2, _⟩ := matchMarker_facts _ _ _ h2
            have hacc' : acc.reverse = m2 ++ r2 := hacc
            have hsome := hself2 (r2 ++ (c :: cs'))
            rw [hacc', List.append_assoc] at h
            rw [h] at hsome
            exact absurd hsome (by simp)
        · intro pr hpr
          rcases List.mem_cons.mp hpr with rfl | hpr'
          · refine ⟨?_, hs0'⟩
            have hs := hself []
            rw [List.append_nil] at hs
            exact hs
          · exact hpairs' pr hpr'
      | none =>
        have heq : splitQAux (fuel + 1) acc (c :: cs') = splitQAux fuel (c :: acc) cs' := by
          rw [splitQAux, hm]
        have hlen' : cs'.length ≤ fuel := by
          simp at hlen
          omega
        have hinv' : (c :: acc) = [] ∨ matchMarker ((c :: acc).reverse ++ cs') = none := by
          right
          have harr : (c :: acc).reverse ++ cs' = acc.reverse ++ (c :: cs') := by simp

          rw [harr]
          rcases hinv with rfl | h
          · simpa using hm
          · exact h
        obtain ⟨s0, pairs, hsp, hs0, hps⟩ := ih cs' (c :: acc) hlen' hinv'
        exact ⟨s0, pairs, heq ▸ hsp, hs0, hps⟩

lemma full_marker_isMarkerStr (s : String)
    (h : matchMarker s.data = some (s.data, [])) : isMarkerStr s = true := by
  rw [isMarkerStr, h]
  rfl

lemma full_marker_ne_empty (s : String)
    (h : matchMarker s.data = some (s.data, [])) : s ≠ "" := by
  intro heq
  rw [heq] at h
  exact absurd h (by decide)

lemma str_append_ne_empty_left (m s : String) (h : m ≠ "") : m ++ s ≠ "" := by
  intro heq
  have hl := congrArg String.length heq
  rw [String.length_append] at hl
  have hz : ("" : String).length = 0 := rfl
  have hm : m.length ≠ 0 := by
    intro h0
    apply h
    apply String.ext
    exact List.length_eq_zero.mp h0
  omega

lemma paperLoop_nil_some (doc : Document) (q cur : String) (chunks : List Chunk) :
    paperLoop doc [] cur (some q) chunks =
      if cur = "" then chunks
      else chunks ++ [createChunk cur doc "question" (ChunkMeta.question q)] := rfl

/-- A marker part with no current question just installs itself as the
current question. -/
lemma paperLoop_cons_marker_none (doc : Document) (part : String) (rest : List String)
    (cur : String) (chunks : List Chunk) (h : isMarkerStr part = true) :
    paperLoop doc (part :: rest) cur none chunks =
      paperLoop doc rest part (some part) chunks := by
  have h' : (matchMarker part.data).isSome = true := h
  rw [paperLoop, if_pos h']

/-- A marker part flushes the current chunk (when nonempty) and starts
the next question. -/
lemma paperLoop_cons_marker_some (doc : Document) (part : String) (rest : List String)
    (cur q : String) (chunks : List Chunk) (h : isMarkerStr part = true) :
    paperLoop doc (part :: rest) cur (some q) chunks =
      paperLoop doc rest part (some part)
        (if cur = "" then chunks
         else chunks ++ [createChunk cur doc "question" (ChunkMeta.question q)]) := by
  have h' : (matchMarker part.data).isSome = true := h
  rw [paperLoop, if_pos h']

/-- A non-marker part extends the current chunk text. -/
lemma paperLoop_cons_seg (doc : Document) (part : String) (rest : List String)
    (cur : String) (curQ : Option String) (chunks : List Chunk)
    (h : isMarkerStr part = false) :
    paperLoop doc (part :: rest) cur curQ chunks =
      paperLoop doc rest (cur ++ part) curQ chunks := by
  have h' : ¬ (matchMarker part.data).isSome = true := by
    rw [show (matchMarker part.data).isSome = isMarkerStr part from rfl, h]
    simp
  rw [paperLoop.eq_def]
  show (if (matchMarker part.data).isSome = true then
      let chunks1 :=
        match curQ with
        | some q =>
          if cur = "" then chunks
          else chunks ++ [createChunk cur doc "question" (ChunkMeta.question q)]
        | none => chunks
      paperLoop doc rest part (some part) chunks1
    else paperLoop doc rest (cur ++ part) curQ chunks) =
      paperLoop doc rest (cur ++ part) curQ chunks
  rw [if_neg h']

/-- Running the loop over alternating marker/segment pairs with a
nonempty current chunk and current question flushes one chunk per
marker, each built from its marker and the following segment. -/
lemma paperLoop_run (doc : Document) :
    ∀ (pairs : List (String × String)) (chunks : List Chunk) (q cur : String),
      (∀ pr ∈ pairs, matchMarker pr.1.data = some (pr.1.data, []) ∧
        isMarkerStr pr.2 = false) →
      cur ≠ "" →
      paperLoop doc (flatPairs pairs) cur (some q) chunks =
        (chunks ++ [createChunk cur doc "question" (ChunkMeta.question q)]) ++
          pairs.map (fun pr => createChunk (pr.1 ++ pr.2) doc "question"
            (ChunkMeta.question pr.1)) := by
  intro pairs
  induction pairs with
  | nil =>
    intro chunks q cur _ hcur
    show paperLoop doc [] cur (some q) chunks = _
    rw [paperLoop_nil_some, if_neg hcur]
    simp [flatPairs]
  | cons pr rest ih =>
    obtain ⟨m, s⟩ := pr
    intro chunks q cur hall hcur
    have hm := (hall (m, s) (by simp)).1
    have hs := (hall (m, s) (by simp)).2
    show paperLoop doc (m :: s :: flatPairs rest) cur (some q) chunks = _
    rw [paperLoop_cons_marker_some doc m _ cur q chunks (full_marker_isMarkerStr m hm),
      if_neg hcur]
    rw [paperLoop_cons_seg doc s _ m (some m) _ hs]
    have hms : m ++ s ≠ "" := str_append_ne_empty_left m s (full_marker_ne_empty m hm)
    rw [ih _ m (m ++ s) (fun pr2 hpr2 => hall pr2 (by simp [hpr2])) hms]
    simp

/-- Claim C4: on any exam-paper text whose question-pattern split finds
at least two markers, `_chunk_past_paper` emits exactly one chunk per
marker; the i-th chunk stores the i-th marker as its `question_id` and
its (stripped) text starts with that marker; and the text preceding the
first marker feeds into no chunk — the result is computed from the
parts after the leading segment alone (`parts.drop 1`). -/
theorem chunk_past_paper_questions (S V : Nat) (doc : Document)
    (h2 : 2 ≤ (altMarkers (splitQuestionPattern doc.full_text)).length) :
    ∃ cs, chunkPastPaper S V doc = some cs ∧
      cs.length = (altMarkers (splitQuestionPattern doc.full_text)).length ∧
      (∀ i ci mi, cs.get? i = some ci →
        (altMarkers (splitQuestionPattern doc.full_text)).get? i = some mi →
        ci.meta = ChunkMeta.question mi ∧ ∃ t, ci.text = mi ++ t) ∧
      cs = paperLoop doc ((splitQuestionPattern doc.full_text).drop 1) "" none [] := by
  obtain ⟨s0, pairs, hsp, hs0, hpairs⟩ := splitQAux_shape doc.full_text.data.length
    doc.full_text.data [] (le_refl _) (Or.inl rfl)
  have hparts : splitQuestionPattern doc.full_text = s0 :: flatPairs pairs := hsp
  have hmk : altMarkers (splitQuestionPattern doc.full_text) = pairs.map Prod.fst := by
    rw [hparts]
    exact altMarkers_flat pairs s0
  have h2' : 2 ≤ pairs.length := by
    rw [hmk, List.length_map] at h2
    exact h2
  have hplen : (splitQuestionPattern doc.full_text).length = 1 + 2 * pairs.length := by
    rw [hparts]
    simp only [List.length_cons, flatPairs_length]
    omega
  cases pairs with
  | nil => simp at h2'
  | cons pr0 rest =>
    obtain ⟨m1, s1⟩ := pr0
    have hm1 := (hpairs (m1, s1) (by simp)).1
    have hs1 := (hpairs (m1, s1) (by simp)).2
    have hrest : ∀ pr2 ∈ rest, matchMarker pr2.1.data = some (pr2.1.data, []) ∧
        isMarkerStr pr2.2 = false := fun pr2 h => hpairs pr2 (by simp [h])
    have hmne : m1 ≠ "" := full_marker_ne_empty m1 hm1
    have hms : m1 ++ s1 ≠ "" := str_append_ne_empty_left _ _ hmne
    have hrun := paperLoop_run doc rest [] m1 (m1 ++ s1) hrest hms
    have heval : paperLoop doc (splitQuestionPattern doc.full_text) "" none [] =
        ((m1, s1) :: rest).map (fun pr => createChunk (pr.1 ++ pr.2) doc "question"
          (ChunkMeta.question pr.1)) := by
      rw [hparts]
      show paperLoop doc (s0 :: (m1 :: s1 :: flatPairs rest)) "" none [] = _
      rw [paperLoop_cons_seg doc s0 _ "" none [] hs0]
      rw [paperLoop_cons_marker_none doc m1 _ ("" ++ s0) []
        (full_marker_isMarkerStr m1 hm1)]
      rw [paperLoop_cons_seg doc s1 _ m1 (some m1) [] hs1]
      rw [hrun]
      simp
    have hdropEval : paperLoop doc ((splitQuestionPattern doc.full_text).drop 1)
        "" none [] =
        ((m1, s1) :: rest).map (fun pr => createChunk (pr.1 ++ pr.2) doc "question"
          (ChunkMeta.question pr.1)) := by
      rw [hparts]
      show paperLoop doc (m1 :: s1 :: flatPairs rest) "" none [] = _
      rw [paperLoop_cons_marker_none doc m1 _ "" [] (full_marker_isMarkerStr m1 hm1)]
      rw [paperLoop_cons_seg doc s1 _ m1 (some m1) [] hs1]
      rw [hrun]
      simp
    have hgt : 3 < (splitQuestionPattern doc.full_text).length := by
      have hlc : ((m1, s1) :: rest).length = rest.length + 1 := rfl
      rw [hplen, hlc]
      omega
    have hcpp : chunkPastPaper S V doc =
        some (paperLoop doc (splitQuestionPattern doc.full_text) "" none []) := by
      simp only [chunkPastPaper]
      rw [if_pos hgt]
    refine ⟨((m1, s1) :: rest).map (fun pr => createChunk (pr.1 ++ pr.2) doc "question"
      (ChunkMeta.question pr.1)), ?_, ?_, ?_, ?_⟩
    · rw [hcpp, heval]
    · rw [hmk]
      simp
    · intro i ci mi hci hmi
      rw [List.get?_map] at hci
      rw [hmk, List.get?_map] at hmi
      cases hpq : ((m1, s1) :: rest).get? i with
      | none =>
        rw [hpq] at hci
        exact absurd hci (by simp)
      | some pr =>
        rw [hpq] at hci hmi
        simp only [Option.map_some'] at hci hmi
        have hci' : ci = createChunk (pr.1 ++ pr.2) doc "question"
            (ChunkMeta.question pr.1) := (Option.some_inj.mp hci).symm
        have hmi' : mi = pr.1 := (Option.some_inj.mp hmi).symm
        subst hci'
        subst hmi'
        have hmem : pr ∈ (m1, s1) :: rest := List.get?_mem hpq
        have hprm : matchMarker pr.1.data = some (pr.1.data, []) := (hpairs pr hmem).1
        obtain ⟨_, _, c0, mid, p, hshape0, hc0, hp0⟩ := matchMarker_facts _ _ _ hprm
        constructor
        · rfl
        · have htext : (createChunk (pr.1 ++ pr.2) doc "question"
              (ChunkMeta.question pr.1)).text = pyStrip (pr.1 ++ pr.2) := rfl
          have hdata : pr.1 ++ pr.2 = String.mk (pr.1.data ++ pr.2.data) := rfl
          obtain ⟨u, hu⟩ := pyStrip_marker c0 mid p hc0 hp0 pr.2.data
          refine ⟨String.mk u, ?_⟩
          rw [htext, hdata, hshape0, hu, ← hshape0]
          rfl
    · rw [hdropEval]

/-- A concrete exam-paper document with two question markers. -/
def paperDoc : Document :=
  { filename := "p", full_text := "intro Q1: a Q2) b", doc_type := "past_paper",
    course := "c", course_code := "cc" }

/-- Witness for C4 at a concrete exam paper. -/
theorem chunk_past_paper_questions_witness :
    ∃ cs, chunkPastPaper 512 50 paperDoc = some cs ∧
      cs.length = (altMarkers (splitQuestionPattern paperDoc.full_text)).length ∧
      (∀ i ci mi, cs.get? i = some ci →
        (altMarkers (splitQuestionPattern paperDoc.full_text)).get? i = some mi →
        ci.meta = ChunkMeta.question mi ∧ ∃ t, ci.text = mi ++ t) ∧
      cs = paperLoop paperDoc ((splitQuestionPattern paperDoc.full_text).drop 1)
        "" none [] :=
  chunk_past_paper_questions 512 50 paperDoc (by decide)

end UniAssist
